import Mathlib

/-!
Verification development for the `bills-utilities` repository.

The Python code is shallowly embedded over `List Char`.  Strings are modelled
as lists of characters and the Python string operations used by the code
(`str.split` with a one-character separator, `str.join`, `str.lower`,
`str.title`, indexing, `str.endswith`) are given executable definitions that
follow CPython semantics on ASCII text (the repository only manipulates ASCII
identifiers; `\w`, `lower`, `upper`, `title` are modelled on the ASCII
fragment).  Fallible operations (string indexing, membership test on `None`)
return `Option` / `Except`.
-/

/-! ## Character classes (ASCII fragment of the CPython semantics) -/

def isAsciiLowerC (c : Char) : Bool := decide ('a' ≤ c ∧ c ≤ 'z')

def isAsciiUpperC (c : Char) : Bool := decide ('A' ≤ c ∧ c ≤ 'Z')

def isAsciiDigitC (c : Char) : Bool := decide ('0' ≤ c ∧ c ≤ '9')

def isAsciiAlphaC (c : Char) : Bool := isAsciiLowerC c || isAsciiUpperC c

def isAsciiAlnumC (c : Char) : Bool := isAsciiAlphaC c || isAsciiDigitC c

/-- Python regex `\w` (word character): alphanumeric or underscore. -/
def isWordCharC (c : Char) : Bool := isAsciiAlnumC c || decide (c = '_')

/-- `str.lower` on one character (ASCII). -/
def toLowC (c : Char) : Char :=
  if isAsciiUpperC c then Char.ofNat (c.toNat + 32) else c

/-- `str.upper` on one character (ASCII). -/
def toUpC (c : Char) : Char :=
  if isAsciiLowerC c then Char.ofNat (c.toNat - 32) else c

/-! ## Python string operations -/

/-- `s.lower()`. -/
def pyLower (s : List Char) : List Char := s.map toLowC

/-- Helper for `str.title`: the flag records whether the previous character
was a letter (CPython uppercases a letter that does not follow a letter and
lowercases the others). -/
def pyTitleAux : Bool → List Char → List Char
  | _, [] => []
  | prev, c :: r =>
    (if isAsciiAlphaC c then (if prev then toLowC c else toUpC c) else c)
      :: pyTitleAux (isAsciiAlphaC c) r

/-- `s.title()`. -/
def pyTitle (s : List Char) : List Char := pyTitleAux false s

/-- `s.split(sep)` for a one-character separator `sep` (all separators in the
code are one character: `"_"`, `"-"`, `"."`).  As in Python,
`"".split(sep) == [""]`. -/
def pySplit (sep : Char) : List Char → List (List Char)
  | [] => [[]]
  | c :: rest =>
    match pySplit sep rest with
    | [] => [[]]
    | w :: ws => if c = sep then [] :: w :: ws else (c :: w) :: ws

/-- `sep.join(ws)`. -/
def pyJoin (sep : List Char) (ws : List (List Char)) : List Char :=
  List.intercalate sep ws

/-! ## The five case styles (`src/_strings/case_switcher.py`)

`from_case` splits a token into words, `to_case` joins words back.
`CamelCase.to_case` indexes `string[0]`, which raises `IndexError` when the
joined string is empty; it is therefore embedded with an `Option` result
(`none` = `IndexError`). -/

/-- `re.sub(r"([a-z])([A-Z])", r"\1_\2", text)`: insert `_` between a lowercase
letter immediately followed by an uppercase letter; the regex scan consumes
both characters of a match before continuing. -/
def camelBoundSub : List Char → List Char
  | [] => []
  | [c] => [c]
  | c1 :: c2 :: r =>
    if isAsciiLowerC c1 && isAsciiUpperC c2 then
      c1 :: '_' :: c2 :: camelBoundSub r
    else
      c1 :: camelBoundSub (c2 :: r)

namespace SnakeCase

def from_case (text : List Char) : List (List Char) := pySplit '_' text

def to_case (words : List (List Char)) : List Char := pyLower (pyJoin ['_'] words)

end SnakeCase

namespace KebabCase

def from_case (text : List Char) : List (List Char) := pySplit '-' text

def to_case (words : List (List Char)) : List Char := pyLower (pyJoin ['-'] words)

end KebabCase

namespace DotCase

def from_case (text : List Char) : List (List Char) := pySplit '.' text

def to_case (words : List (List Char)) : List Char := pyLower (pyJoin ['.'] words)

end DotCase

namespace CamelCase

def from_case (text : List Char) : List (List Char) := pySplit '_' (camelBoundSub text)

/-- `string = "".join(token.title() for token in text); string[0].lower() + string[1:]`.
The indexing `string[0]` raises `IndexError` on the empty string: `none`. -/
def to_case (words : List (List Char)) : Option (List Char) :=
  match (words.map pyTitle).flatten with
  | [] => none
  | c :: r => some (toLowC c :: r)

end CamelCase

namespace PascalCase

def from_case (text : List Char) : List (List Char) := pySplit '_' (camelBoundSub text)

def to_case (words : List (List Char)) : List Char := (words.map pyTitle).flatten

end PascalCase

/-- The `Case` enumeration. -/
inductive Case where
  | SNAKE_CASE
  | KEBAB_CASE
  | CAMEL_CASE
  | PASCAL_CASE
  | DOT_CASE
deriving DecidableEq, Repr

/-- Dispatch of `from_case` over the enumeration. -/
def Case.fromCase : Case → List Char → List (List Char)
  | .SNAKE_CASE => SnakeCase.from_case
  | .KEBAB_CASE => KebabCase.from_case
  | .CAMEL_CASE => CamelCase.from_case
  | .PASCAL_CASE => PascalCase.from_case
  | .DOT_CASE => DotCase.from_case

/-- Dispatch of `to_case` over the enumeration, with the camel-case
`IndexError` surfaced as `none`. -/
def Case.toCase : Case → List (List Char) → Option (List Char)
  | .SNAKE_CASE => fun ws => some (SnakeCase.to_case ws)
  | .KEBAB_CASE => fun ws => some (KebabCase.to_case ws)
  | .CAMEL_CASE => CamelCase.to_case
  | .PASCAL_CASE => fun ws => some (PascalCase.to_case ws)
  | .DOT_CASE => fun ws => some (DotCase.to_case ws)

/-! ## The regex machinery of `switch_case`

Each style's `pattern` has the shape `\b C+ \b` for a character class `C`
(`\w` for snake, `[\dA-Za-z-]` for kebab, `[\dA-Za-z.]` for dot,
`[\dA-Za-z]` for camel and Pascal).  `matchAt` implements the backtracking
semantics of that pattern at one start position, `findall` the left-to-right
non-overlapping scan of `re.findall`, and `subAll` the replacement pass
`re.sub(f"\\b{item}\\b", repl, string)` (where the characters of `item` are
literal except `.`, which matches any character other than a newline). -/

/-- The character class `C` of the style's `_pattern`. -/
def Case.tokClass : Case → Char → Bool
  | .SNAKE_CASE => isWordCharC
  | .KEBAB_CASE => fun c => isAsciiAlnumC c || decide (c = '-')
  | .CAMEL_CASE => isAsciiAlnumC
  | .PASCAL_CASE => isAsciiAlnumC
  | .DOT_CASE => fun c => isAsciiAlnumC c || decide (c = '.')

/-- Is the character at index `i` a word character (out of range counts as
not a word character)? -/
def wordAt (s : List Char) (i : ℕ) : Bool :=
  match s.get? i with
  | some c => isWordCharC c
  | none => false

/-- The `\b` assertion at position `i` (positions run from `0` to
`s.length`). -/
def boundaryAt (s : List Char) (i : ℕ) : Bool :=
  (match i with
   | 0 => false
   | j + 1 => wordAt s j) != wordAt s i

/-- Backtracking search for the largest `e' ≤ e`, `e' ≥ 1`, such that `\b`
holds at `i + e'`. -/
def findBack (s : List Char) (i : ℕ) : ℕ → Option ℕ
  | 0 => none
  | e + 1 => if boundaryAt s (i + e + 1) then some (e + 1) else findBack s i e

/-- Match `\b C+ \b` at position `i`; returns the matched length. -/
def matchAt (C : Char → Bool) (s : List Char) (i : ℕ) : Option ℕ :=
  if boundaryAt s i then findBack s i ((s.drop i).takeWhile C).length else none

/-- The scanning loop of `re.findall` (fuelled; every match has length at
least 1, so `s.length + 1` fuel always suffices). -/
def findallAux (C : Char → Bool) (s : List Char) : ℕ → ℕ → List (List Char)
  | 0, _ => []
  | fuel + 1, i =>
    if i ≤ s.length then
      match matchAt C s i with
      | some e => ((s.drop i).take e) :: findallAux C s fuel (i + e)
      | none => findallAux C s fuel (i + 1)
    else []

/-- `re.findall(pattern, s)`. -/
def findall (C : Char → Bool) (s : List Char) : List (List Char) :=
  findallAux C s (s.length + 1) 0

/-- Match the characters of `item` literally against a prefix of the second
argument (`.` matches any character except a newline). -/
def litMatch : List Char → List Char → Bool
  | [], _ => true
  | _ :: _, [] => false
  | c :: cs, d :: ds =>
    (if c = '.' then decide (d ≠ '\n') else decide (c = d)) && litMatch cs ds

/-- Match of the pattern `\b{item}\b` at position `i`. -/
def subMatchAt (item s : List Char) (i : ℕ) : Bool :=
  boundaryAt s i && litMatch item (s.drop i) && boundaryAt s (i + item.length)

/-- The replacement scan of `re.sub` (fuelled). -/
def subAllAux (item repl s : List Char) : ℕ → ℕ → List Char
  | 0, i => s.drop i
  | fuel + 1, i =>
    if i < s.length then
      if subMatchAt item s i then
        repl ++ subAllAux item repl s fuel (i + item.length)
      else
        (match s.get? i with
         | some c => [c]
         | none => []) ++ subAllAux item repl s fuel (i + 1)
    else []

/-- `re.sub(f"\\b{item}\\b", repl, s)`. -/
def subAll (item repl s : List Char) : List Char :=
  subAllAux item repl s (s.length + 1) 0

/-! ## The fast-path branch of `switch_case`

Line 147 runs `re.search(f"^{from_case.value.pattern}$", text)`.  The
interpolated value is the *compiled* pattern object, whose `str`/`repr` is
the text `re.compile('<escaped pattern>')`, so the searched regex is, e.g.
for snake case, `^re.compile('\\b\\w+\\b')$`.  Read as a regex this is: the
literal characters `re`, any character (the `.`), `compile`, then `(` and
`)` which are a capturing group's delimiters and match *no* characters of
the text, then inside the group the literal `'`, backslash, `b`, backslash,
one or more `w`, backslash, `b`, `'`, anchored (`$` also matches just before
a trailing newline).  So the texts that fire the branch are paren-free, of
the shape `re?compile'\b\w+\b'`.  The definitions below decide that
search. -/

/-- `$` tail: end of string, or a single trailing newline. -/
def endOkRepr : List Char → Bool
  | [] => true
  | ['\n'] => true
  | _ => false

/-- Tail matcher for `\\b\\w+\\b'` followed by the group-closing `)` (which
matches no character) and `$`. -/
def snakeReprTail : List Char → Bool
  | '\\' :: 'b' :: '\\' :: 'w' :: rest =>
    (match rest.dropWhile (fun c => decide (c = 'w')) with
     | '\\' :: 'b' :: '\'' :: e => endOkRepr e
     | _ => false)
  | _ => false

/-- The closing `\\b'` of the repr'd pattern, followed by the group-closing
`)` (which matches no character) and `$`. -/
def closeRepr : List Char → Bool
  | '\\' :: 'b' :: '\'' :: e => endOkRepr e
  | _ => false

/-- Scan the `[...]+` region of the repr'd class patterns: the remaining text
either closes now, or consumes one more class character (backtracking
disjunction of the regex `+`). -/
def midScanRepr (cls : Char → Bool) : List Char → Bool
  | [] => false
  | c :: r => closeRepr (c :: r) || (cls c && midScanRepr cls r)

/-- Tail matcher for `\\b[...]+\\b'` followed by the group-closing `)` and
`$` (the `+` needs at least one class character). -/
def classReprTail (cls : Char → Bool) : List Char → Bool
  | '\\' :: 'b' :: c :: r => cls c && midScanRepr cls r
  | _ => false

/-- The character class appearing inside the repr of the style's compiled
pattern (escaped, so it additionally contains the backslash and the letter
`d` from `\\d`). -/
def Case.reprClass : Case → Char → Bool
  | .SNAKE_CASE => fun _ => false
  | .KEBAB_CASE => fun c =>
      decide (c = '\\') || decide (c = 'd') || isAsciiUpperC c ||
        isAsciiLowerC c || decide (c = '-')
  | .CAMEL_CASE => fun c =>
      decide (c = '\\') || decide (c = 'd') || isAsciiUpperC c || isAsciiLowerC c
  | .PASCAL_CASE => fun c =>
      decide (c = '\\') || decide (c = 'd') || isAsciiUpperC c || isAsciiLowerC c
  | .DOT_CASE => fun c =>
      decide (c = '\\') || decide (c = 'd') || isAsciiUpperC c ||
        isAsciiLowerC c || decide (c = '.')

/-- Consume the literal `compile` and the quote after the leading `re` and
the any-char `.`; the regex `(` between them is a capture-group delimiter
and matches no character of the text.  Returns the remaining text. -/
def compileOpen : List Char → Option (List Char)
  | 'c' :: 'o' :: 'm' :: 'p' :: 'i' :: 'l' :: 'e' :: '\'' :: rest => some rest
  | _ => none

/-- The style-specific tail of the repr'd pattern after `compile('`. -/
def reprTail (fc : Case) (rest : List Char) : Bool :=
  match fc with
  | .SNAKE_CASE => snakeReprTail rest
  | .KEBAB_CASE => classReprTail (Case.reprClass .KEBAB_CASE) rest
  | .CAMEL_CASE => classReprTail (Case.reprClass .CAMEL_CASE) rest
  | .PASCAL_CASE => classReprTail (Case.reprClass .PASCAL_CASE) rest
  | .DOT_CASE => classReprTail (Case.reprClass .DOT_CASE) rest

/-- The branch condition of line 147:
`re.search(f"^{from_case.value.pattern}$", text)` succeeds. -/
def fastPathCond (fc : Case) (text : List Char) : Bool :=
  match text with
  | a :: b :: c2 :: t =>
    decide (a = 'r') && decide (b = 'e') && decide (c2 ≠ '\n') &&
      (match compileOpen t with
       | some rest => reprTail fc rest
       | none => false)
  | _ => false

/-! ## `switch_case` -/

/-- `_switch_case(text, from_case, to_case)`. -/
def switchCaseRaw (text : List Char) (fc tc : Case) : Option (List Char) :=
  tc.toCase (fc.fromCase text)

/-- `switch_case(text, from_case, to_case)`; `none` models an uncaught
exception (the camel-case `IndexError`). -/
def switch_case (text : List Char) (fc tc : Case) : Option (List Char) :=
  if fastPathCond fc text then switchCaseRaw text fc tc
  else
    (findall fc.tokClass text).foldlM
      (fun s item => (switchCaseRaw item fc tc).map fun repl => subAll item repl s)
      text

/-! ## Spec-side intended anchored match

Modelled from the spec: the intended meaning of the fast-path branch — "the
entire input matches the `from` style's word-boundary pattern anchored at
both ends", i.e. `re.search("^" + _pattern + "$", text)` with the *pattern
string* (not the compiled object) interpolated.  The regex
`^\b C+ \b$` matches iff some prefix length `e ≥ 1` of class characters ends
at a word boundary where `$` also holds. -/

def dollarAt (s : List Char) (e : ℕ) : Bool :=
  decide (e = s.length) ||
    (decide (e + 1 = s.length) &&
      (match s.get? e with
       | some c => decide (c = '\n')
       | none => false))

def anchoredTokenMatch (C : Char → Bool) (s : List Char) : Bool :=
  boundaryAt s 0 &&
    (List.range (s.length + 1)).any fun e =>
      decide (0 < e) && (s.take e).all C && boundaryAt s e && dollarAt s e

/-! ## Basic lemmas about the string primitives -/

theorem pySplit_eq_splitOn (sep : Char) (s : List Char) :
    pySplit sep s = s.splitOn sep := by
  induction s with
  | nil => rfl
  | cons c r ih =>
    rw [pySplit, ih]
    cases h : r.splitOn sep with
    | nil => exact absurd h (List.splitOnP_ne_nil _ r)
    | cons w ws =>
      rw [List.splitOn] at h
      by_cases hc : c = sep
      · simp [List.splitOn, List.splitOnP_cons, hc, h]
      · simp [List.splitOn, List.splitOnP_cons, hc, h]

theorem pySplit_single {sep : Char} {s : List Char} (h : sep ∉ s) :
    pySplit sep s = [s] := by
  rw [pySplit_eq_splitOn]
  exact List.splitOnP_eq_single _ _ fun x hx hb => h (eq_of_beq hb ▸ hx)

theorem pySplit_intercalate {sep : Char} {ws : List (List Char)}
    (hws : ws ≠ []) (h : ∀ w ∈ ws, sep ∉ w) :
    pySplit sep (pyJoin [sep] ws) = ws := by
  rw [pySplit_eq_splitOn, pyJoin]
  exact List.splitOn_intercalate _ sep h hws

theorem foldlM_option_isSome {α β : Type} {f : α → β → Option α}
    (hf : ∀ a b, (f a b).isSome = true) :
    ∀ (l : List β) (a : α), (l.foldlM f a).isSome = true := by
  intro l
  induction l with
  | nil => intro a; rfl
  | cons b t ih =>
    intro a
    rw [List.foldlM_cons]
    cases hfa : f a b with
    | none =>
      have h2 := hf a b
      rw [hfa] at h2
      simp at h2
    | some a2 => simpa [hfa] using ih a2

/-! ## Claim C1 -/

/-- C1: the claim says the single-token fast path applies whenever the whole
input matches the `from` style's anchored word-boundary pattern.  The code is
a slip: line 147 interpolates the *compiled* pattern object into the
f-string, so the branch searches for the regex `^re.compile('\\b\\w+\\b')$`
(for snake case), in which the parentheses are a capturing group matching no
characters.  At the failing input `"abc"` (from = snake): the input does
match the intended anchored pattern, the code's branch condition is false,
and the conversion is produced by the fallback loop instead (the value
happens to agree with `to.join(from.split(text))`).  The branch does not
even fire on the repr text itself (the group delimiters match none of its
parentheses); it fires exactly on paren-free texts of the shape
`re?compile'\b\w+\b'`. -/
theorem switch_case_fast_path_repr_slip :
    anchoredTokenMatch (Case.tokClass .SNAKE_CASE) "abc".data = true ∧
    fastPathCond .SNAKE_CASE "abc".data = false ∧
    fastPathCond .SNAKE_CASE "re.compile('\\b\\w\\b')".data = false ∧
    fastPathCond .SNAKE_CASE "reXcompile'\\b\\w\\b'".data = true ∧
    switch_case "abc".data .SNAKE_CASE .PASCAL_CASE = some "Abc".data ∧
    Case.toCase .PASCAL_CASE (Case.fromCase .SNAKE_CASE "abc".data) =
      some "Abc".data := by
  decide

/-! ## Claim C2 -/

/-- C2, counterexample: the input `"_"` with target camel case raises
`IndexError` (the snake token `"_"` splits into two empty words, the
camel-case join of which is the empty string, and `""[0]` fails). -/
theorem switch_case_underscore_to_camel_raises :
    switch_case "_".data .SNAKE_CASE .CAMEL_CASE = none := by
  decide

theorem toCase_isSome_of_ne_camel {tc : Case} (h : tc ≠ .CAMEL_CASE)
    (ws : List (List Char)) : (tc.toCase ws).isSome = true := by
  cases tc <;> simp [Case.toCase] at h ⊢

/-- C2, amended: `switch_case` terminates normally and returns a string for
every input whenever the target case is not camel case (snake, kebab, dot and
Pascal joins are total); with target camel case a matched token consisting
only of separators raises `IndexError`. -/
theorem switch_case_total_of_target_not_camel
    (text : List Char) (fc tc : Case) (h : tc ≠ .CAMEL_CASE) :
    (switch_case text fc tc).isSome = true := by
  rw [switch_case]
  by_cases hb : fastPathCond fc text
  · simpa [hb, switchCaseRaw] using toCase_isSome_of_ne_camel h _
  · simp only [hb, if_false]
    refine foldlM_option_isSome (fun s item => ?_) _ _
    have := toCase_isSome_of_ne_camel h (fc.fromCase item)
    cases hr : switchCaseRaw item fc tc with
    | none => rw [switchCaseRaw] at hr; simp [hr] at this
    | some repl => simp [hr]

/-- C2 witness: a concrete run of the amended theorem. -/
theorem switch_case_total_of_target_not_camel_witness :
    Case.PASCAL_CASE ≠ Case.CAMEL_CASE ∧
      (switch_case "abc".data .SNAKE_CASE .PASCAL_CASE).isSome = true :=
  ⟨by decide, switch_case_total_of_target_not_camel _ _ _ (by decide)⟩

/-! ## Claim C4 -/

/-- C4, counterexample: the claim expects the free-text words `is` and `here`
to pass through unchanged, but every whitespace-separated word matches the
snake pattern and is converted, so the output is not
`"The ColumnName is here"`. -/
theorem switch_case_free_text_not_claimed_value :
    switch_case "The column_name is here".data .SNAKE_CASE .PASCAL_CASE ≠
      some "The ColumnName is here".data := by
  decide

/-- C4, amended: every word of the free text matches the snake single-word
pattern and is Pascal-converted, so `is` and `here` are capitalized as well
(`The` is unchanged only because its Pascal form coincides with itself):
the result is `"The ColumnName Is Here"`. -/
theorem switch_case_free_text_value :
    switch_case "The column_name is here".data .SNAKE_CASE .PASCAL_CASE =
      some "The ColumnName Is Here".data := by
  decide

/-! ## Claim C5 -/

/-- C5: the four canonical single-token conversions. -/
theorem switch_case_canonical_conversions :
    switch_case "snake_case_example".data .SNAKE_CASE .PASCAL_CASE =
        some "SnakeCaseExample".data ∧
      switch_case "kebab-case-example".data .KEBAB_CASE .CAMEL_CASE =
        some "kebabCaseExample".data ∧
      switch_case "dot.case.example".data .DOT_CASE .SNAKE_CASE =
        some "dot_case_example".data ∧
      switch_case "camelCaseExample".data .CAMEL_CASE .SNAKE_CASE =
        some "camel_case_example".data := by
  decide

/-! ## Claim C6 -/

/-- C6, counterexample: the camel-case join of the empty word sequence does
not return the empty string — it raises `IndexError` (`""[0]`). -/
theorem camel_to_case_empty_raises : CamelCase.to_case [] = none := by
  decide

/-- C6, amended: the snake, kebab, dot and Pascal joins of the empty word
sequence return the empty string; the camel join raises `IndexError`. -/
theorem to_case_empty_values :
    SnakeCase.to_case [] = [] ∧ KebabCase.to_case [] = [] ∧
      DotCase.to_case [] = [] ∧ PascalCase.to_case [] = [] ∧
      CamelCase.to_case [] = none := by
  decide

/-! ## Claim C8 -/

/-- Does the text contain a lowercase letter immediately followed by an
uppercase letter (the only boundary `re.sub(r"([a-z])([A-Z])", ...)`
detects)? -/
def hasLowerUpperPair : List Char → Bool
  | c1 :: c2 :: r => (isAsciiLowerC c1 && isAsciiUpperC c2) || hasLowerUpperPair (c2 :: r)
  | _ => false

theorem camelBoundSub_eq_self {s : List Char} (h : hasLowerUpperPair s = false) :
    camelBoundSub s = s := by
  induction s with
  | nil => rfl
  | cons c1 t ih =>
    cases t with
    | nil => rfl
    | cons c2 r =>
      rw [hasLowerUpperPair] at h
      simp only [Bool.or_eq_false_iff] at h
      rw [camelBoundSub, if_neg (by simp [h.1]), ih h.2]

/-- C8: an input with no lowercase→uppercase transition and no underscore is
returned whole by the camel and Pascal splits: consecutive uppercase letters
(acronyms) and digit boundaries are never split apart. -/
theorem camel_pascal_from_case_no_boundary (s : List Char)
    (h1 : hasLowerUpperPair s = false) (h2 : '_' ∉ s) :
    CamelCase.from_case s = [s] ∧ PascalCase.from_case s = [s] := by
  rw [CamelCase.from_case, PascalCase.from_case, camelBoundSub_eq_self h1,
    pySplit_single h2]
  exact ⟨rfl, rfl⟩

/-- C8 witness: the acronym example `"HTTPServer"` from the spec. -/
theorem camel_pascal_from_case_no_boundary_witness :
    hasLowerUpperPair "HTTPServer".data = false ∧ '_' ∉ "HTTPServer".data ∧
      CamelCase.from_case "HTTPServer".data = ["HTTPServer".data] ∧
      PascalCase.from_case "HTTPServer".data = ["HTTPServer".data] := by
  refine ⟨by decide, by decide, ?_, ?_⟩
  · exact (camel_pascal_from_case_no_boundary _ (by decide) (by decide)).1
  · exact (camel_pascal_from_case_no_boundary _ (by decide) (by decide)).2

/-! ## Claim C7: no match of the pattern means the text passes through -/

theorem bool_flip_exists (f : ℕ → Bool) :
    ∀ n, f 0 = true → f n = false → ∃ e, e < n ∧ f e = true ∧ f (e + 1) = false := by
  intro n
  induction n with
  | zero => intro h0 hn; rw [h0] at hn; exact absurd hn (by simp)
  | succ n ih =>
    intro h0 hn
    cases hfn : f n with
    | true => exact ⟨n, Nat.lt_succ_self n, hfn, hn⟩
    | false =>
      obtain ⟨e, he, h1, h2⟩ := ih h0 hfn
      exact ⟨e, Nat.lt_succ_of_lt he, h1, h2⟩

theorem findBack_ne_none {s : List Char} {i : ℕ} :
    ∀ {n : ℕ}, (∃ e, e < n ∧ boundaryAt s (i + e + 1) = true) →
      findBack s i n ≠ none := by
  intro n
  induction n with
  | zero =>
    rintro ⟨e, he, -⟩
    exact absurd he (Nat.not_lt_zero e)
  | succ n ih =>
    rintro ⟨e, he, hbnd⟩
    rw [findBack]
    by_cases h : boundaryAt s (i + n + 1) = true
    · rw [if_pos h]; simp
    · rw [if_neg h]
      refine ih ⟨e, ?_, hbnd⟩
      rcases Nat.lt_succ_iff_lt_or_eq.mp he with h1 | rfl
      · exact h1
      · exact absurd hbnd h

theorem get?_length_takeWhile {C : Char → Bool} :
    ∀ (t : List Char) (d : Char),
      t.get? (t.takeWhile C).length = some d → C d = false := by
  intro t
  induction t with
  | nil => intro d h; simp at h
  | cons x t2 ih =>
    intro d h
    cases hx : C x with
    | true =>
      rw [List.takeWhile_cons, if_pos hx] at h
      simp only [List.length_cons, List.get?_cons_succ] at h
      exact ih d h
    | false =>
      rw [List.takeWhile_cons, if_neg (by simp [hx])] at h
      simp only [List.length_nil, List.get?_cons_zero, Option.some.injEq] at h
      rw [← h]
      exact hx

/-- If position `i` starts with a word character of the class, and every
class failure in the tail is a non-word character, then `\b C+ \b` matches at
`i`: the run of class characters begins with a word character and ends before
a non-word one, so some backtracking endpoint is a word boundary. -/
theorem matchAt_ne_none {C : Char → Bool} {s : List Char} {i : ℕ} {c : Char}
    (hget : s.get? i = some c) (hC : C c = true) (hw : isWordCharC c = true)
    (hb : boundaryAt s i = true)
    (hP : ∀ d ∈ s.drop i, C d = false → isWordCharC d = false) :
    matchAt C s i ≠ none := by
  rw [matchAt, if_pos hb]
  set n := ((s.drop i).takeWhile C).length with hn
  have hw0 : wordAt s (i + 0) = true := by
    rw [Nat.add_zero]; unfold wordAt; rw [hget]; exact hw
  have hwn : wordAt s (i + n) = false := by
    cases hgn : s.get? (i + n) with
    | none => unfold wordAt; rw [hgn]
    | some d =>
      have hget2 : (s.drop i).get? n = some d := by
        rw [List.get?_drop]; exact hgn
      have hmem : d ∈ s.drop i := List.get?_mem hget2
      rw [hn] at hget2
      have hdC := get?_length_takeWhile (s.drop i) d hget2
      unfold wordAt; rw [hgn]; exact hP d hmem hdC
  have hn1 : 1 ≤ n := by
    have h1 : s[i]? = some c := by rw [← List.get?_eq_getElem?]; exact hget
    obtain ⟨hlt, hEq⟩ := List.getElem?_eq_some_iff.mp h1
    rw [hn, List.drop_eq_getElem_cons hlt, hEq, List.takeWhile_cons, if_pos hC]
    simp
  obtain ⟨e, helt, hfe, hfe1⟩ := bool_flip_exists (fun e => wordAt s (i + e)) n hw0 hwn
  apply findBack_ne_none
  refine ⟨e, helt, ?_⟩
  have hbe : boundaryAt s (i + e + 1) = (wordAt s (i + e) != wordAt s (i + e + 1)) := rfl
  rw [hbe, hfe, Nat.add_assoc, hfe1]
  rfl

theorem alnum_of_upper {c : Char} (h : isAsciiUpperC c = true) :
    isAsciiAlnumC c = true := by
  simp [isAsciiAlnumC, isAsciiAlphaC, h]

theorem alnum_of_lower {c : Char} (h : isAsciiLowerC c = true) :
    isAsciiAlnumC c = true := by
  simp [isAsciiAlnumC, isAsciiAlphaC, h]

/-- Every character of the escaped class in the repr'd pattern is either a
character of the style's real token class or a non-word character (the
backslash). -/
theorem reprClass_sub (fc : Case) (c : Char) (h : Case.reprClass fc c = true) :
    fc.tokClass c = true ∨ isWordCharC c = false := by
  cases fc with
  | SNAKE_CASE => simp [Case.reprClass] at h
  | KEBAB_CASE =>
    simp only [Case.reprClass, Bool.or_eq_true, decide_eq_true_eq] at h
    rcases h with (((rfl | rfl) | hu) | hl) | rfl
    · right; decide
    · left; decide
    · left; simp [Case.tokClass, alnum_of_upper hu]
    · left; simp [Case.tokClass, alnum_of_lower hl]
    · left; decide
  | CAMEL_CASE =>
    simp only [Case.reprClass, Bool.or_eq_true, decide_eq_true_eq] at h
    rcases h with ((rfl | rfl) | hu) | hl
    · right; decide
    · left; decide
    · left; simp [Case.tokClass, alnum_of_upper hu]
    · left; simp [Case.tokClass, alnum_of_lower hl]
  | PASCAL_CASE =>
    simp only [Case.reprClass, Bool.or_eq_true, decide_eq_true_eq] at h
    rcases h with ((rfl | rfl) | hu) | hl
    · right; decide
    · left; decide
    · left; simp [Case.tokClass, alnum_of_upper hu]
    · left; simp [Case.tokClass, alnum_of_lower hl]
  | DOT_CASE =>
    simp only [Case.reprClass, Bool.or_eq_true, decide_eq_true_eq] at h
    rcases h with (((rfl | rfl) | hu) | hl) | rfl
    · right; decide
    · left; decide
    · left; simp [Case.tokClass, alnum_of_upper hu]
    · left; simp [Case.tokClass, alnum_of_lower hl]
    · left; decide

theorem endOkRepr_chars {e : List Char} (h : endOkRepr e = true) :
    ∀ d ∈ e, d = '\n' := by
  rw [endOkRepr.eq_def] at h
  split at h
  · intro d hd; simp at hd
  · intro d hd; simpa using hd
  · simp at h

theorem closeRepr_chars {l : List Char} (h : closeRepr l = true) :
    ∀ d ∈ l, d = '\\' ∨ d = 'b' ∨ d = '\'' ∨ d = '\n' := by
  rw [closeRepr.eq_def] at h
  split at h
  · intro d hd
    simp only [List.mem_cons] at hd
    rcases hd with rfl | rfl | rfl | hd
    · exact Or.inl rfl
    · exact Or.inr (Or.inl rfl)
    · exact Or.inr (Or.inr (Or.inl rfl))
    · exact Or.inr (Or.inr (Or.inr (endOkRepr_chars h d hd)))
  · simp at h

theorem midScanRepr_chars {cls : Char → Bool} :
    ∀ {r : List Char}, midScanRepr cls r = true →
      ∀ d ∈ r, cls d = true ∨ d = '\\' ∨ d = 'b' ∨ d = '\'' ∨ d = '\n' := by
  intro r
  induction r with
  | nil => intro h; simp [midScanRepr] at h
  | cons c t ih =>
    intro h d hd
    rw [midScanRepr, Bool.or_eq_true] at h
    rcases h with h1 | h2
    · exact Or.inr (closeRepr_chars h1 d hd)
    · rw [Bool.and_eq_true] at h2
      rcases List.mem_cons.mp hd with rfl | hd2
      · exact Or.inl h2.1
      · exact ih h2.2 d hd2

/-- For any style, if the remaining text after the quote consists of the
escaped `\\b`, one escaped-class character and a well-formed middle and
closing, then the real token pattern matches at position 12 (the `b` of the
escaped `\\b`). -/
theorem classTail_matchAt (fc : Case) (c2 c3 : Char) (r : List Char)
    (hc3 : Case.reprClass fc c3 = true)
    (hmid : midScanRepr (Case.reprClass fc) r = true)
    (htb : Case.tokClass fc 'b' = true) :
    matchAt fc.tokClass
      ('r' :: 'e' :: c2 :: 'c' :: 'o' :: 'm' :: 'p' :: 'i' :: 'l' :: 'e' ::
        '\'' :: '\\' :: 'b' :: c3 :: r) 12 ≠ none := by
  refine matchAt_ne_none (c := 'b') rfl htb (by decide) rfl ?_
  intro d hd hdC
  have hdrop :
      ('r' :: 'e' :: c2 :: 'c' :: 'o' :: 'm' :: 'p' :: 'i' :: 'l' :: 'e' ::
        '\'' :: '\\' :: 'b' :: c3 :: r).drop 12 = 'b' :: c3 :: r := rfl
  rw [hdrop] at hd
  rcases List.mem_cons.mp hd with rfl | hd2
  · exact absurd htb (by simp [hdC])
  rcases List.mem_cons.mp hd2 with rfl | hd3
  · rcases reprClass_sub fc d hc3 with htok | hnw
    · exact absurd htok (by simp [hdC])
    · exact hnw
  · rcases midScanRepr_chars hmid d hd3 with hcls | rfl | rfl | rfl | rfl
    · rcases reprClass_sub fc d hcls with htok | hnw
      · exact absurd htok (by simp [hdC])
      · exact hnw
    · decide
    · exact absurd htb (by simp [hdC])
    · decide
    · decide

/-- If the buggy fast-path condition fires, the style's own token pattern
matches at position 13 of the text (the `b` of the escaped `\\b`). -/
theorem compileOpen_eq_some {t rest : List Char} (h : compileOpen t = some rest) :
    t = 'c' :: 'o' :: 'm' :: 'p' :: 'i' :: 'l' :: 'e' :: '\'' :: rest := by
  rw [compileOpen.eq_def] at h
  split at h
  · injection h with h
    rw [h]
  · simp at h

/-- If the buggy fast-path condition fires, the style's own token pattern
matches at position 12 of the text (the `b` of the escaped `\\b`). -/
theorem fastPath_matchAt12 (fc : Case) (text : List Char)
    (h : fastPathCond fc text = true) :
    matchAt fc.tokClass text 12 ≠ none ∧ 12 ≤ text.length := by
  rw [fastPathCond.eq_def] at h
  split at h
  · simp only [Bool.and_eq_true, decide_eq_true_eq] at h
    obtain ⟨⟨⟨rfl, rfl⟩, -⟩, h⟩ := h
    cases hco : compileOpen _ with
    | none => rw [hco] at h; simp at h
    | some rest =>
      rw [hco] at h
      replace h : reprTail fc rest = true := h
      rw [compileOpen_eq_some hco]
      cases fc with
    | SNAKE_CASE =>
      replace h : snakeReprTail rest = true := h
      rw [snakeReprTail.eq_def] at h
      split at h
      · split at h
        · constructor
          · refine matchAt_ne_none (c := 'b') rfl (by decide) (by decide) rfl ?_
            exact fun d _ hdC => hdC
          · simp only [List.length_cons]; omega
        · simp at h
      · simp at h
    | KEBAB_CASE =>
      replace h : classReprTail (Case.reprClass .KEBAB_CASE) rest = true := h
      rw [classReprTail.eq_def] at h
      split at h
      · rw [Bool.and_eq_true] at h
        exact ⟨classTail_matchAt _ _ _ _ h.1 h.2 (by decide),
          by simp only [List.length_cons]; omega⟩
      · simp at h
    | CAMEL_CASE =>
      replace h : classReprTail (Case.reprClass .CAMEL_CASE) rest = true := h
      rw [classReprTail.eq_def] at h
      split at h
      · rw [Bool.and_eq_true] at h
        exact ⟨classTail_matchAt _ _ _ _ h.1 h.2 (by decide),
          by simp only [List.length_cons]; omega⟩
      · simp at h
    | PASCAL_CASE =>
      replace h : classReprTail (Case.reprClass .PASCAL_CASE) rest = true := h
      rw [classReprTail.eq_def] at h
      split at h
      · rw [Bool.and_eq_true] at h
        exact ⟨classTail_matchAt _ _ _ _ h.1 h.2 (by decide),
          by simp only [List.length_cons]; omega⟩
      · simp at h
    | DOT_CASE =>
      replace h : classReprTail (Case.reprClass .DOT_CASE) rest = true := h
      rw [classReprTail.eq_def] at h
      split at h
      · rw [Bool.and_eq_true] at h
        exact ⟨classTail_matchAt _ _ _ _ h.1 h.2 (by decide),
          by simp only [List.length_cons]; omega⟩
      · simp at h
  · simp at h

theorem findallAux_ne_nil {C : Char → Bool} {s : List Char} :
    ∀ (fuel i j : ℕ), i ≤ j → j ≤ s.length → matchAt C s j ≠ none →
      j - i < fuel → findallAux C s fuel i ≠ [] := by
  intro fuel
  induction fuel with
  | zero => intro i j h1 h2 h3 h4; omega
  | succ fuel ih =>
    intro i j h1 h2 h3 h4
    rw [findallAux, if_pos (le_trans h1 h2)]
    cases hm : matchAt C s i with
    | some e => simp
    | none =>
      have hij : i ≠ j := fun hEq => h3 (hEq ▸ hm)
      exact ih (i + 1) j (by omega) h2 h3 (by omega)

theorem findall_ne_nil_of_fastPath {fc : Case} {text : List Char}
    (h : fastPathCond fc text = true) : findall fc.tokClass text ≠ [] := by
  obtain ⟨hm, hlen⟩ := fastPath_matchAt12 fc text h
  exact findallAux_ne_nil _ 0 12 (by omega) hlen hm (by omega)

/-- C7: an input in which the `from` style's pattern finds no match (empty
match set) passes through `switch_case` verbatim: the fast-path branch cannot
fire (any text of the repr shape contains a match), and the fallback loop
iterates over an empty list. -/
theorem switch_case_id_of_no_match (text : List Char) (fc tc : Case)
    (h : findall fc.tokClass text = []) :
    switch_case text fc tc = some text := by
  have hfp : fastPathCond fc text = false := by
    cases hb : fastPathCond fc text
    · rfl
    · exact absurd h (findall_ne_nil_of_fastPath hb)
  rw [switch_case, hfp]
  simp [h]

/-- C7 witness: the empty string has no match and passes through, in
particular `switch_case("", SNAKE, CAMEL) == ""`. -/
theorem switch_case_id_of_no_match_witness :
    findall (Case.tokClass .SNAKE_CASE) "".data = [] ∧
      switch_case "".data .SNAKE_CASE .CAMEL_CASE = some "".data :=
  ⟨by decide, switch_case_id_of_no_match _ _ _ (by decide)⟩

/-! ## Claim C9: the spreadsheet writers (`src/strings.py`)

The writers validate the filepath and raise `ValueError` when it does not end
with `.xlsx`; the actual spreadsheet output (and optional logging) is I/O and
is abstracted away — the embedding keeps the observable validation outcome,
`Except.error` carrying the formatted message of the `raise`. -/

/-- `str.endswith(suffix)`. -/
def pyEndsWith (suffix s : List Char) : Bool := suffix.isSuffixOf s

/-- `_is_valid_xlsx_filepath(filepath)`. -/
def _is_valid_xlsx_filepath (filepath : List Char) : Bool :=
  pyEndsWith ".xlsx".data filepath

/-- The message of the `ValueError` raised by both writers. -/
def xlsxErrorMsg (filepath : List Char) : List Char :=
  "File names must end with '.xlsx'. The path ".data ++ filepath ++
    " is invalid.".data

/-- `write_to_xlsx(dataframe, filepath)`: the validation gate. -/
def write_to_xlsx {α : Type} (dataframe : α) (filepath : List Char) :
    Except (List Char) Unit :=
  if _is_valid_xlsx_filepath filepath then Except.ok ()
  else Except.error (xlsxErrorMsg filepath)

/-- `write_many_to_xlsx(dataframes, filepath)`: the validation gate (the
dataframes are a sheet-name-to-table mapping). -/
def write_many_to_xlsx {α : Type} (dataframes : List (List Char × α))
    (filepath : List Char) : Except (List Char) Unit :=
  if _is_valid_xlsx_filepath filepath then Except.ok ()
  else Except.error (xlsxErrorMsg filepath)

/-- C9: both writers raise `ValueError` exactly when the filepath does not
end with `.xlsx`, i.e. when it is not of the form `pre ++ ".xlsx"`. -/
theorem write_xlsx_error_iff_not_xlsx {α : Type} (df : α)
    (dfs : List (List Char × α)) (fp : List Char) :
    ((∃ e, write_to_xlsx df fp = Except.error e) ↔
      ¬∃ pre, fp = pre ++ ".xlsx".data) ∧
    ((∃ e, write_many_to_xlsx dfs fp = Except.error e) ↔
      ¬∃ pre, fp = pre ++ ".xlsx".data) := by
  have hiff : _is_valid_xlsx_filepath fp = true ↔ ∃ pre, fp = pre ++ ".xlsx".data := by
    rw [_is_valid_xlsx_filepath, pyEndsWith, List.isSuffixOf_iff_suffix]
    constructor
    · rintro ⟨t, ht⟩
      exact ⟨t, ht.symm⟩
    · rintro ⟨pre, rfl⟩
      exact ⟨pre, rfl⟩
  by_cases h : _is_valid_xlsx_filepath fp = true
  · rw [write_to_xlsx, write_many_to_xlsx, if_pos h]
    constructor <;>
      · constructor
        · rintro ⟨e, he⟩
          exact absurd he (by simp)
        · intro hn
          exact absurd (hiff.mp h) hn
  · rw [write_to_xlsx, write_many_to_xlsx, if_neg h]
    constructor <;>
      · constructor
        · intro _
          intro hex
          exact h (hiff.mpr hex)
        · intro _
          exact ⟨xlsxErrorMsg fp, rfl⟩

/-! ## Claim C10: `add_working_days` (`src/datetimes.py`)

Dates are embedded as integers counting days from a fixed Monday, so
`date.weekday()` is `d % 7` (0 = Monday, ..., 5 = Saturday, 6 = Sunday).
The `holidays` parameter keeps its `None` default as `Option`;
`date not in None` raises `TypeError`.  The `while` loop is fuelled (`none`
result = fuel exhausted, never used by a theorem below). -/

inductive PyError where
  | typeError
deriving DecidableEq, Repr

/-- `date.weekday()`. -/
def weekday (d : ℤ) : ℤ := d % 7

/-- `_is_working_day(date, holidays)`: `date.weekday() < 5 and date not in
holidays`.  The `and` short-circuits, so the membership test — and with it
the `TypeError` on `None` — only happens on weekdays. -/
def _is_working_day (date : ℤ) (holidays : Option (List ℤ)) :
    Except PyError Bool :=
  if weekday date < 5 then
    match holidays with
    | none => Except.error PyError.typeError
    | some hs => Except.ok (decide (date ∉ hs))
  else Except.ok false

/-- The `while working_day_counter < working_days` loop. -/
def add_working_days_loop (holidays : Option (List ℤ)) (working_days : ℤ) :
    ℕ → ℤ → ℤ → Option (Except PyError ℤ)
  | 0, _, _ => none
  | fuel + 1, from_date, counter =>
    if counter < working_days then
      match _is_working_day (from_date + 1) holidays with
      | Except.error e => some (Except.error e)
      | Except.ok true =>
        add_working_days_loop holidays working_days fuel (from_date + 1) (counter + 1)
      | Except.ok false =>
        add_working_days_loop holidays working_days fuel (from_date + 1) counter
    else some (Except.ok from_date)

/-- `add_working_days(from_date, working_days, holidays)` (date input). -/
def add_working_days (from_date : ℤ) (working_days : ℤ)
    (holidays : Option (List ℤ)) (fuel : ℕ) : Option (Except PyError ℤ) :=
  add_working_days_loop holidays working_days fuel from_date 0

theorem add_working_days_none_raises (d wd : ℤ) (h : 1 ≤ wd) :
    add_working_days d wd none 3 = some (Except.error PyError.typeError) := by
  have hwd : (0 : ℤ) < wd := by omega
  by_cases h1 : weekday (d + 1) < 5
  · simp [add_working_days, add_working_days_loop, _is_working_day, h1, hwd]
  · by_cases h2 : weekday (d + 1 + 1) < 5
    · simp [add_working_days, add_working_days_loop, _is_working_day, h1, h2, hwd]
    · have h3 : weekday (d + 1 + 1 + 1) < 5 := by
        unfold weekday at h1 h2 ⊢
        omega
      simp [add_working_days, add_working_days_loop, _is_working_day, h1, h2, h3, hwd]

theorem foldl_max_init : ∀ (hs : List ℤ) (a : ℤ), a ≤ hs.foldl max a := by
  intro hs
  induction hs with
  | nil => intro a; exact le_refl a
  | cons x t ih =>
    intro a
    exact le_trans (le_max_left a x) (ih (max a x))

theorem foldl_max_mem : ∀ (hs : List ℤ) (a x : ℤ), x ∈ hs → x ≤ hs.foldl max a := by
  intro hs
  induction hs with
  | nil => intro a x hx; simp at hx
  | cons y t ih =>
    intro a x hx
    rcases List.mem_cons.mp hx with rfl | hx2
    · exact le_trans (le_max_right a x) (foldl_max_init t (max a x))
    · exact ih (max a y) x hx2

/-- Beyond every holiday and the current date there is always another working
day (at most three days after that bound, since weekends are two days). -/
theorem exists_next_working (d : ℤ) (hs : List ℤ) :
    ∃ dp, d < dp ∧ weekday dp < 5 ∧ dp ∉ hs := by
  have hM1 : d ≤ hs.foldl max d := foldl_max_init hs d
  have hM2 : ∀ x ∈ hs, x ≤ hs.foldl max d := fun x hx => foldl_max_mem hs d x hx
  have hone : weekday (hs.foldl max d + 1) < 5 ∨ weekday (hs.foldl max d + 2) < 5 ∨
      weekday (hs.foldl max d + 3) < 5 := by
    unfold weekday
    omega
  rcases hone with h | h | h
  · exact ⟨_, by omega, h, fun hx => by have := hM2 _ hx; omega⟩
  · exact ⟨_, by omega, h, fun hx => by have := hM2 _ hx; omega⟩
  · exact ⟨_, by omega, h, fun hx => by have := hM2 _ hx; omega⟩

theorem is_working_some_ok (d : ℤ) (hs : List ℤ) :
    ∃ b, _is_working_day d (some hs) = Except.ok b := by
  rw [_is_working_day]
  by_cases h : weekday d < 5
  · exact ⟨_, by rw [if_pos h]⟩
  · exact ⟨false, by rw [if_neg h]⟩

theorem is_working_some_true_iff (d : ℤ) (hs : List ℤ) :
    _is_working_day d (some hs) = Except.ok true ↔ (weekday d < 5 ∧ d ∉ hs) := by
  rw [_is_working_day]
  by_cases h : weekday d < 5
  · rw [if_pos h]
    simp [h]
  · rw [if_neg h]
    simp [h]

theorem loop_reach (hs : List ℤ) (wd counter dp : ℤ)
    (hw : weekday dp < 5) (hh : dp ∉ hs) (hc : counter < wd)
    (Hnext : ∀ d2 : ℤ, ∃ fuel r,
      add_working_days_loop (some hs) wd fuel d2 (counter + 1) = some (Except.ok r)) :
    ∀ (m : ℕ) (d : ℤ), d < dp → dp - d ≤ m →
      ∃ fuel r, add_working_days_loop (some hs) wd fuel d counter = some (Except.ok r) := by
  intro m
  induction m with
  | zero => intro d h1 h2; omega
  | succ m ih =>
    intro d h1 h2
    obtain ⟨b, hb⟩ := is_working_some_ok (d + 1) hs
    cases b with
    | true =>
      obtain ⟨fuel, r, hfr⟩ := Hnext (d + 1)
      exact ⟨fuel + 1, r, by rw [add_working_days_loop, if_pos hc, hb]; exact hfr⟩
    | false =>
      have hne : d + 1 ≠ dp := by
        intro hEq
        have hcontra : _is_working_day (d + 1) (some hs) = Except.ok true :=
          (is_working_some_true_iff _ _).mpr (by rw [hEq]; exact ⟨hw, hh⟩)
        rw [hb] at hcontra
        simp at hcontra
      obtain ⟨fuel, r, hfr⟩ := ih (d + 1) (by omega) (by omega)
      exact ⟨fuel + 1, r, by rw [add_working_days_loop, if_pos hc, hb]; exact hfr⟩

theorem loop_terminates (hs : List ℤ) (wd : ℤ) :
    ∀ (k : ℕ) (counter : ℤ), wd - counter ≤ k →
      ∀ d, ∃ fuel r,
        add_working_days_loop (some hs) wd fuel d counter = some (Except.ok r) := by
  intro k
  induction k with
  | zero =>
    intro counter hk d
    exact ⟨1, d, by rw [add_working_days_loop, if_neg (by omega)]⟩
  | succ k ih =>
    intro counter hk d
    by_cases hc : counter < wd
    · obtain ⟨dp, hdp1, hdp2, hdp3⟩ := exists_next_working d hs
      exact loop_reach hs wd counter dp hdp2 hdp3 hc
        (fun d2 => ih (counter + 1) (by omega) d2) (dp - d).toNat d hdp1 (by omega)
    · exact ⟨1, d, by rw [add_working_days_loop, if_neg hc]⟩

/-- C10: with the `holidays` default left as `None` and `working_days ≥ 1`,
`add_working_days` raises `TypeError` as soon as a weekday candidate is
tested (at most three candidate days in, since weekends are two days long);
with an explicit — possibly empty — holiday list and `working_days ≥ 0` it
returns normally; with `working_days ≤ 0` the loop body never runs and
`from_date` is returned unchanged. -/
theorem add_working_days_spec (d wd : ℤ) (hs : List ℤ) :
    (1 ≤ wd → add_working_days d wd none 3 = some (Except.error PyError.typeError)) ∧
    (0 ≤ wd → ∃ fuel r, add_working_days d wd (some hs) fuel = some (Except.ok r)) ∧
    (wd ≤ 0 → ∀ holidays, add_working_days d wd holidays 1 = some (Except.ok d)) := by
  refine ⟨fun h => add_working_days_none_raises d wd h, fun h => ?_, fun h holidays => ?_⟩
  · obtain ⟨fuel, r, hfr⟩ := loop_terminates hs wd wd.toNat 0 (by omega) d
    exact ⟨fuel, r, hfr⟩
  · rw [add_working_days, add_working_days_loop, if_neg (by omega)]

/-- C10 witness: concrete runs of the three parts. -/
theorem add_working_days_spec_witness :
    add_working_days 0 1 none 3 = some (Except.error PyError.typeError) ∧
      (∃ fuel r, add_working_days 0 2 (some []) fuel = some (Except.ok r)) ∧
      add_working_days 5 0 none 1 = some (Except.ok 5) :=
  ⟨(add_working_days_spec 0 1 []).1 (by norm_num),
    (add_working_days_spec 0 2 []).2.1 (by norm_num),
    (add_working_days_spec 5 0 []).2.2 (by norm_num) none⟩

/-! ## Claim C3: join-then-split round trips

Character-level facts about the ASCII case maps, then the behaviour of
`camelBoundSub` on title-cased words. -/

theorem char_le_iff (a c : Char) : a ≤ c ↔ a.toNat ≤ c.toNat := by
  rw [Char.le_def, UInt32.le_def, BitVec.le_def]
  exact ⟨fun h => h, fun h => h⟩

theorem char_eq_of_toNat {c d : Char} (h : c.toNat = d.toNat) : c = d := by
  rw [← Char.ofNat_toNat c, ← Char.ofNat_toNat d, h]

theorem toNat_ofNat_valid {n : ℕ} (h : n < 55296) : (Char.ofNat n).toNat = n := by
  rw [Char.ofNat, dif_pos (Or.inl (by omega : n < 0xd800))]
  rfl

theorem isAsciiUpperC_iff {c : Char} :
    isAsciiUpperC c = true ↔ (65 ≤ c.toNat ∧ c.toNat ≤ 90) := by
  rw [isAsciiUpperC, decide_eq_true_eq, char_le_iff, char_le_iff]
  exact Iff.rfl

theorem isAsciiLowerC_iff {c : Char} :
    isAsciiLowerC c = true ↔ (97 ≤ c.toNat ∧ c.toNat ≤ 122) := by
  rw [isAsciiLowerC, decide_eq_true_eq, char_le_iff, char_le_iff]
  exact Iff.rfl

theorem isAsciiDigitC_iff {c : Char} :
    isAsciiDigitC c = true ↔ (48 ≤ c.toNat ∧ c.toNat ≤ 57) := by
  rw [isAsciiDigitC, decide_eq_true_eq, char_le_iff, char_le_iff]
  exact Iff.rfl

theorem not_lower_of_upper {c : Char} (h : isAsciiUpperC c = true) :
    isAsciiLowerC c = false := by
  rcases isAsciiUpperC_iff.mp h with ⟨h1, h2⟩
  cases hl : isAsciiLowerC c
  · rfl
  · rcases isAsciiLowerC_iff.mp hl with ⟨h3, h4⟩
    omega

theorem not_upper_of_lower {c : Char} (h : isAsciiLowerC c = true) :
    isAsciiUpperC c = false := by
  rcases isAsciiLowerC_iff.mp h with ⟨h1, h2⟩
  cases hu : isAsciiUpperC c
  · rfl
  · rcases isAsciiUpperC_iff.mp hu with ⟨h3, h4⟩
    omega

theorem toLowC_eq_self {c : Char} (h : isAsciiUpperC c = false) : toLowC c = c := by
  rw [toLowC, if_neg (by simp [h])]

theorem toUpC_eq_self {c : Char} (h : isAsciiLowerC c = false) : toUpC c = c := by
  rw [toUpC, if_neg (by simp [h])]

theorem toNat_toLowC_of_upper {c : Char} (h : isAsciiUpperC c = true) :
    (toLowC c).toNat = c.toNat + 32 := by
  rcases isAsciiUpperC_iff.mp h with ⟨h1, h2⟩
  rw [toLowC, if_pos h, toNat_ofNat_valid (by omega)]

theorem toNat_toUpC_of_lower {c : Char} (h : isAsciiLowerC c = true) :
    (toUpC c).toNat = c.toNat - 32 := by
  rcases isAsciiLowerC_iff.mp h with ⟨h1, h2⟩
  rw [toUpC, if_pos h, toNat_ofNat_valid (by omega)]

theorem lower_toLowC {c : Char} (h : isAsciiAlphaC c = true) :
    isAsciiLowerC (toLowC c) = true := by
  rw [isAsciiAlphaC, Bool.or_eq_true] at h
  rcases h with hl | hu
  · rw [toLowC_eq_self (not_upper_of_lower hl)]
    exact hl
  · rcases isAsciiUpperC_iff.mp hu with ⟨h1, h2⟩
    exact isAsciiLowerC_iff.mpr (by rw [toNat_toLowC_of_upper hu]; omega)

theorem upper_toUpC {c : Char} (h : isAsciiAlphaC c = true) :
    isAsciiUpperC (toUpC c) = true := by
  rw [isAsciiAlphaC, Bool.or_eq_true] at h
  rcases h with hl | hu
  · rcases isAsciiLowerC_iff.mp hl with ⟨h1, h2⟩
    exact isAsciiUpperC_iff.mpr (by rw [toNat_toUpC_of_lower hl]; omega)
  · rw [toUpC_eq_self (not_lower_of_upper hu)]
    exact hu

theorem toLowC_toUpC (c : Char) : toLowC (toUpC c) = toLowC c := by
  cases hl : isAsciiLowerC c
  · rw [toUpC_eq_self hl]
  · rcases isAsciiLowerC_iff.mp hl with ⟨h1, h2⟩
    have hup : isAsciiUpperC (toUpC c) = true := upper_toUpC (by simp [isAsciiAlphaC, hl])
    have h3 : (toUpC c).toNat = c.toNat - 32 := toNat_toUpC_of_lower hl
    apply char_eq_of_toNat
    rw [toNat_toLowC_of_upper hup, h3, toLowC_eq_self (not_upper_of_lower hl)]
    omega

theorem alpha_toLowC {c : Char} (h : isAsciiAlphaC c = true) :
    isAsciiAlphaC (toLowC c) = true := by
  simp [isAsciiAlphaC, lower_toLowC h]

theorem alpha_toUpC {c : Char} (h : isAsciiAlphaC c = true) :
    isAsciiAlphaC (toUpC c) = true := by
  simp [isAsciiAlphaC, upper_toUpC h]

theorem alnum_toLowC {c : Char} (h : isAsciiAlnumC c = true) :
    isAsciiAlnumC (toLowC c) = true := by
  rw [isAsciiAlnumC, Bool.or_eq_true] at h
  rcases h with ha | hd
  · simp [isAsciiAlnumC, alpha_toLowC ha]
  · rcases isAsciiDigitC_iff.mp hd with ⟨h1, h2⟩
    have : isAsciiUpperC c = false := by
      cases hu : isAsciiUpperC c
      · rfl
      · rcases isAsciiUpperC_iff.mp hu with ⟨h3, h4⟩; omega
    rw [toLowC_eq_self this]
    simp [isAsciiAlnumC, hd]

/-- An alphanumeric character is not one of the three separator characters. -/
theorem alnum_ne_sep {c : Char} (h : isAsciiAlnumC c = true) :
    c ≠ '_' ∧ c ≠ '-' ∧ c ≠ '.' := by
  have hval : (48 ≤ c.toNat ∧ c.toNat ≤ 57) ∨ (65 ≤ c.toNat ∧ c.toNat ≤ 90) ∨
      (97 ≤ c.toNat ∧ c.toNat ≤ 122) := by
    rw [isAsciiAlnumC, Bool.or_eq_true] at h
    rcases h with ha | hd
    · rw [isAsciiAlphaC, Bool.or_eq_true] at ha
      rcases ha with hl | hu
      · exact Or.inr (Or.inr (isAsciiLowerC_iff.mp hl))
      · exact Or.inr (Or.inl (isAsciiUpperC_iff.mp hu))
    · exact Or.inl (isAsciiDigitC_iff.mp hd)
  refine ⟨fun hEq => ?_, fun hEq => ?_, fun hEq => ?_⟩ <;>
    · rw [hEq] at hval
      revert hval
      decide

theorem alpha_ne_sep {c : Char} (h : isAsciiAlphaC c = true) :
    c ≠ '_' ∧ c ≠ '-' ∧ c ≠ '.' :=
  alnum_ne_sep (by simp [isAsciiAlnumC, h])

theorem map_intersperse2 {α β : Type} (f : α → β) (sep : α) :
    ∀ l : List α, (List.intersperse sep l).map f = List.intersperse (f sep) (l.map f) := by
  intro l
  induction l with
  | nil => rfl
  | cons x t ih =>
    cases t with
    | nil => rfl
    | cons y t2 =>
      rw [List.intersperse_cons_cons]
      simp only [List.map_cons]
      rw [ih, List.intersperse_cons_cons]
      rfl

theorem pyLower_pyJoin (sep : Char) (hsep : toLowC sep = sep) (ws : List (List Char)) :
    pyLower (pyJoin [sep] ws) = pyJoin [sep] (ws.map pyLower) := by
  show List.map toLowC (List.intersperse [sep] ws).flatten =
    (List.intersperse [sep] (ws.map pyLower)).flatten
  rw [List.map_flatten, map_intersperse2]
  have : List.map toLowC [sep] = [sep] := by simp [hsep]
  rw [this]
  rfl

theorem intercalate_cons₂ {α : Type} (sep x : List α) (ys : List (List α))
    (h : ys ≠ []) :
    List.intercalate sep (x :: ys) = x ++ sep ++ List.intercalate sep ys := by
  cases ys with
  | nil => exact absurd rfl h
  | cons y t =>
    show (List.intersperse sep (x :: y :: t)).flatten = _
    rw [List.intersperse_cons_cons, List.flatten_cons, List.flatten_cons]
    rw [List.append_assoc]
    rfl

theorem intercalate_single {α : Type} (sep x : List α) :
    List.intercalate sep [x] = x := by
  show (List.intersperse sep [x]).flatten = x
  rw [List.intersperse_singleton, List.flatten_cons, List.flatten_nil, List.append_nil]

/-! Title-casing of purely alphabetic words. -/

theorem pyTitleAux_true_alpha :
    ∀ (w : List Char), (∀ c ∈ w, isAsciiAlphaC c = true) →
      pyTitleAux true w = pyLower w := by
  intro w
  induction w with
  | nil => intro _; rfl
  | cons c t ih =>
    intro h
    have hc : isAsciiAlphaC c = true := h c (by simp)
    rw [pyTitleAux, if_pos hc, hc, ih (fun d hd => h d (by simp [hd]))]
    rfl

theorem pyTitle_cons_alpha {c : Char} {t : List Char} (hc : isAsciiAlphaC c = true)
    (ht : ∀ d ∈ t, isAsciiAlphaC d = true) :
    pyTitle (c :: t) = toUpC c :: pyLower t := by
  rw [pyTitle, pyTitleAux, if_pos hc, hc, pyTitleAux_true_alpha t ht]
  rfl

theorem pyLower_all_lower {t : List Char} (ht : ∀ d ∈ t, isAsciiAlphaC d = true) :
    ∀ c ∈ pyLower t, isAsciiLowerC c = true := by
  intro c hcm
  obtain ⟨d, hd, rfl⟩ := List.mem_map.mp hcm
  exact lower_toLowC (ht d hd)

theorem pyTitle_all_alpha {w : List Char} (hw : ∀ d ∈ w, isAsciiAlphaC d = true) :
    ∀ c ∈ pyTitle w, isAsciiAlphaC c = true := by
  cases w with
  | nil => intro c hc; simp [pyTitle, pyTitleAux] at hc
  | cons x t =>
    rw [pyTitle_cons_alpha (hw x (by simp)) (fun d hd => hw d (by simp [hd]))]
    intro c hc
    rcases List.mem_cons.mp hc with rfl | hc2
    · exact alpha_toUpC (hw x (by simp))
    · obtain ⟨d, hd, rfl⟩ := List.mem_map.mp hc2
      exact alpha_toLowC (hw d (by simp [hd]))

/-! Behaviour of `camelBoundSub` on blocks of lowercase letters followed by
an uppercase letter. -/

theorem no_pair_of_all_lower :
    ∀ {ls : List Char}, (∀ c ∈ ls, isAsciiLowerC c = true) →
      hasLowerUpperPair ls = false := by
  intro ls
  induction ls with
  | nil => intro _; rfl
  | cons c1 t ih =>
    intro h
    cases t with
    | nil => rfl
    | cons c2 r =>
      have h2 : isAsciiUpperC c2 = false := not_upper_of_lower (h c2 (by simp))
      rw [hasLowerUpperPair]
      simp only [h2, Bool.and_false, Bool.false_or]
      exact ih fun c hc => h c (by simp [List.mem_cons.mp hc])

theorem cbs_all_lower {ls : List Char} (h : ∀ c ∈ ls, isAsciiLowerC c = true) :
    camelBoundSub ls = ls :=
  camelBoundSub_eq_self (no_pair_of_all_lower h)

theorem cbs_nonlower_cons {c : Char} {l : List Char} (h : isAsciiLowerC c = false) :
    camelBoundSub (c :: l) = c :: camelBoundSub l := by
  cases l with
  | nil => rfl
  | cons c2 r => rw [camelBoundSub, if_neg (by simp [h])]

theorem cbs_lower_block :
    ∀ {ls : List Char}, ls ≠ [] → (∀ c ∈ ls, isAsciiLowerC c = true) →
      ∀ {V : Char} {rs : List Char}, isAsciiUpperC V = true →
        camelBoundSub (ls ++ V :: rs) = ls ++ '_' :: V :: camelBoundSub rs := by
  intro ls
  induction ls with
  | nil => intro h; exact absurd rfl h
  | cons l1 t ih =>
    intro _ hlow V rs hV
    cases t with
    | nil =>
      simp only [List.cons_append, List.nil_append]
      rw [camelBoundSub, if_pos (by simp [hlow l1 (by simp), hV])]
    | cons l2 t2 =>
      have h2 : isAsciiUpperC l2 = false := not_upper_of_lower (hlow l2 (by simp))
      simp only [List.cons_append]
      rw [camelBoundSub, if_neg (by simp [h2])]
      rw [← List.cons_append, ih (by simp) (fun c hc => hlow c (by simp [List.mem_cons.mp hc])) hV]
      rfl

/-- Every word other than the last has at least two characters (the condition
under which title-cased words keep a lowercase letter at each junction). -/
def midLenOK : List (List Char) → Bool
  | w1 :: w2 :: rest => decide (2 ≤ w1.length) && midLenOK (w2 :: rest)
  | _ => true

theorem midLenOK_cons {w1 w2 : List Char} {rest : List (List Char)}
    (h : midLenOK (w1 :: w2 :: rest) = true) :
    2 ≤ w1.length ∧ midLenOK (w2 :: rest) = true := by
  rw [midLenOK, Bool.and_eq_true, decide_eq_true_eq] at h
  exact h

theorem no_underscore_of_alpha {w : List Char}
    (hw : ∀ d ∈ w, isAsciiAlphaC d = true) : '_' ∉ w :=
  fun hm => (alpha_ne_sep (hw _ hm)).1 rfl

/-- The `camelBoundSub` pass on a lowercase block followed by the flattened
title-cased words inserts `_` exactly at the word junctions, provided every
word before the last has at least two letters. -/
theorem cbs_chain :
    ∀ (ws : List (List Char)),
      (∀ w ∈ ws, w ≠ [] ∧ ∀ c ∈ w, isAsciiAlphaC c = true) →
      midLenOK ws = true →
      ∀ (ls : List Char), ls ≠ [] → (∀ c ∈ ls, isAsciiLowerC c = true) →
        camelBoundSub (ls ++ (ws.map pyTitle).flatten) =
          List.intercalate ['_'] (ls :: ws.map pyTitle) := by
  intro ws
  induction ws with
  | nil =>
    intro _ _ ls _ hlow
    rw [List.map_nil, List.flatten_nil, List.append_nil, cbs_all_lower hlow,
      intercalate_single]
  | cons w ws2 ih =>
    intro hgood hmid ls hne hlow
    obtain ⟨hwne, hwalpha⟩ := hgood w (by simp)
    obtain ⟨c, t, rfl⟩ : ∃ c t, w = c :: t := by
      cases w with
      | nil => exact absurd rfl hwne
      | cons c t => exact ⟨c, t, rfl⟩
    have hc : isAsciiAlphaC c = true := hwalpha c (by simp)
    have ht : ∀ d ∈ t, isAsciiAlphaC d = true := fun d hd => hwalpha d (by simp [hd])
    rw [List.map_cons, List.flatten_cons, pyTitle_cons_alpha hc ht, List.cons_append]
    rw [cbs_lower_block hne hlow (upper_toUpC hc)]
    cases ws2 with
    | nil =>
      rw [List.map_nil, List.flatten_nil, List.append_nil]
      rw [cbs_all_lower (pyLower_all_lower ht)]
      rw [intercalate_cons₂ ['_'] ls _ (by simp), intercalate_single]
      simp [pyTitle_cons_alpha hc ht]
    | cons w2 ws3 =>
      obtain ⟨hlen2, hmid2⟩ := midLenOK_cons hmid
      have htne : pyLower t ≠ [] := by
        cases t with
        | nil => simp at hlen2
        | cons x y => simp [pyLower]
      rw [ih (fun u hu => hgood u (by simp [hu])) hmid2 (pyLower t) htne
        (pyLower_all_lower ht)]
      rw [intercalate_cons₂ ['_'] ls _ (by simp),
        intercalate_cons₂ ['_'] (toUpC c :: pyLower t) _ (by simp),
        intercalate_cons₂ ['_'] (pyLower t) _ (by simp)]
      simp

theorem pascal_round_trip (ws : List (List Char)) (hne : ws ≠ [])
    (hgood : ∀ w ∈ ws, w ≠ [] ∧ ∀ c ∈ w, isAsciiAlphaC c = true)
    (hmid : midLenOK ws = true) :
    PascalCase.from_case (PascalCase.to_case ws) = ws.map pyTitle := by
  obtain ⟨w, ws2, rfl⟩ : ∃ w ws2, ws = w :: ws2 := by
    cases ws with
    | nil => exact absurd rfl hne
    | cons w ws2 => exact ⟨w, ws2, rfl⟩
  obtain ⟨hwne, hwalpha⟩ := hgood w (by simp)
  obtain ⟨c, t, rfl⟩ : ∃ c t, w = c :: t := by
    cases w with
    | nil => exact absurd rfl hwne
    | cons c t => exact ⟨c, t, rfl⟩
  have hc : isAsciiAlphaC c = true := hwalpha c (by simp)
  have ht : ∀ d ∈ t, isAsciiAlphaC d = true := fun d hd => hwalpha d (by simp [hd])
  rw [PascalCase.to_case, PascalCase.from_case]
  rw [List.map_cons, List.flatten_cons, pyTitle_cons_alpha hc ht, List.cons_append]
  rw [cbs_nonlower_cons (not_lower_of_upper (upper_toUpC hc))]
  cases ws2 with
  | nil =>
    rw [List.map_nil, List.flatten_nil, List.append_nil]
    rw [cbs_all_lower (pyLower_all_lower ht)]
    have hnou : '_' ∉ (toUpC c :: pyLower t) := by
      intro hm
      rcases List.mem_cons.mp hm with hEq | hm2
      · exact (alpha_ne_sep (alpha_toUpC hc)).1 hEq.symm
      · obtain ⟨d, hd, hEq⟩ := List.mem_map.mp hm2
        exact (alpha_ne_sep (alpha_toLowC (ht d hd))).1 hEq
    rw [pySplit_single hnou]
  | cons w2 ws3 =>
    obtain ⟨hlen2, hmid2⟩ := midLenOK_cons hmid
    have htne : pyLower t ≠ [] := by
      cases t with
      | nil => simp at hlen2
      | cons x y => simp [pyLower]
    rw [cbs_chain (w2 :: ws3) (fun u hu => hgood u (by simp [hu])) hmid2
      (pyLower t) htne (pyLower_all_lower ht)]
    have hstep : toUpC c :: List.intercalate ['_'] (pyLower t :: (w2 :: ws3).map pyTitle) =
        List.intercalate ['_'] ((toUpC c :: pyLower t) :: (w2 :: ws3).map pyTitle) := by
      rw [intercalate_cons₂ ['_'] (pyLower t) _ (by simp),
        intercalate_cons₂ ['_'] (toUpC c :: pyLower t) _ (by simp)]
      simp
    rw [hstep]
    have hfree : ∀ u ∈ (toUpC c :: pyLower t) :: (w2 :: ws3).map pyTitle, '_' ∉ u := by
      intro u hu
      rcases List.mem_cons.mp hu with rfl | hu2
      · intro hm
        rcases List.mem_cons.mp hm with hEq | hm2
        · exact (alpha_ne_sep (alpha_toUpC hc)).1 hEq.symm
        · obtain ⟨d, hd, hEq⟩ := List.mem_map.mp hm2
          exact (alpha_ne_sep (alpha_toLowC (ht d hd))).1 hEq
      · obtain ⟨v, hv, rfl⟩ := List.mem_map.mp hu2
        exact no_underscore_of_alpha (pyTitle_all_alpha (hgood v (by simp [hv])).2)
    have hsplit := @pySplit_intercalate '_'
      ((toUpC c :: pyLower t) :: (w2 :: ws3).map pyTitle) (by simp) hfree
    rw [pyJoin] at hsplit
    rw [hsplit]

theorem camel_round_trip (w1 : List Char) (rest : List (List Char))
    (hgood : ∀ w ∈ w1 :: rest, w ≠ [] ∧ ∀ c ∈ w, isAsciiAlphaC c = true)
    (hmid : midLenOK rest = true) :
    ∃ s, CamelCase.to_case (w1 :: rest) = some s ∧
      CamelCase.from_case s = pyLower w1 :: rest.map pyTitle := by
  obtain ⟨hwne, hwalpha⟩ := hgood w1 (by simp)
  obtain ⟨c, t, rfl⟩ : ∃ c t, w1 = c :: t := by
    cases w1 with
    | nil => exact absurd rfl hwne
    | cons c t => exact ⟨c, t, rfl⟩
  have hc : isAsciiAlphaC c = true := hwalpha c (by simp)
  have ht : ∀ d ∈ t, isAsciiAlphaC d = true := fun d hd => hwalpha d (by simp [hd])
  have hflat : (((c :: t) :: rest).map pyTitle).flatten =
      toUpC c :: (pyLower t ++ (rest.map pyTitle).flatten) := by
    rw [List.map_cons, List.flatten_cons, pyTitle_cons_alpha hc ht, List.cons_append]
  rw [CamelCase.to_case, hflat]
  refine ⟨_, rfl, ?_⟩
  rw [CamelCase.from_case, toLowC_toUpC]
  have hlowblock : ∀ d ∈ toLowC c :: pyLower t, isAsciiLowerC d = true := by
    intro d hd
    rcases List.mem_cons.mp hd with rfl | hd2
    · exact lower_toLowC hc
    · exact pyLower_all_lower ht d hd2
  have hshape : toLowC c :: (pyLower t ++ (rest.map pyTitle).flatten) =
      (toLowC c :: pyLower t) ++ (rest.map pyTitle).flatten := by
    rw [List.cons_append]
  rw [hshape]
  cases rest with
  | nil =>
    rw [List.map_nil, List.flatten_nil, List.append_nil]
    rw [cbs_all_lower hlowblock]
    have hnou2 : '_' ∉ toLowC c :: pyLower t := by
      intro hm
      rcases List.mem_cons.mp hm with hEq | hm2
      · exact (alpha_ne_sep (alpha_toLowC hc)).1 hEq.symm
      · obtain ⟨d, hd, hEq⟩ := List.mem_map.mp hm2
        exact (alpha_ne_sep (alpha_toLowC (ht d hd))).1 hEq
    rw [pySplit_single hnou2]
    rfl
  | cons w2 ws3 =>
    rw [cbs_chain (w2 :: ws3) (fun u hu => hgood u (by simp [hu])) hmid
      (toLowC c :: pyLower t) (by simp) hlowblock]
    have hfree : ∀ u ∈ (toLowC c :: pyLower t) :: (w2 :: ws3).map pyTitle, '_' ∉ u := by
      intro u hu
      rcases List.mem_cons.mp hu with rfl | hu2
      · intro hm
        rcases List.mem_cons.mp hm with hEq | hm2
        · exact (alpha_ne_sep (alpha_toLowC hc)).1 hEq.symm
        · obtain ⟨d, hd, hEq⟩ := List.mem_map.mp hm2
          exact (alpha_ne_sep (alpha_toLowC (ht d hd))).1 hEq
      · obtain ⟨v, hv, rfl⟩ := List.mem_map.mp hu2
        exact no_underscore_of_alpha (pyTitle_all_alpha (hgood v (by simp [hv])).2)
    have hsplit := @pySplit_intercalate '_'
      ((toLowC c :: pyLower t) :: (w2 :: ws3).map pyTitle) (by simp) hfree
    rw [pyJoin] at hsplit
    rw [hsplit]
    rfl

theorem flat_round_trip (sep : Char) (hsep : toLowC sep = sep)
    (hforb : ∀ c : Char, isAsciiAlnumC c = true → toLowC c ≠ sep)
    (ws : List (List Char)) (hne : ws ≠ [])
    (halnum : ∀ w ∈ ws, ∀ c ∈ w, isAsciiAlnumC c = true) :
    pySplit sep (pyLower (pyJoin [sep] ws)) = ws.map pyLower := by
  rw [pyLower_pyJoin sep hsep]
  refine pySplit_intercalate ?_ ?_
  · intro hEq
    exact hne (List.map_eq_nil_iff.mp hEq)
  · intro u hu hmem
    obtain ⟨w, hw, rfl⟩ := List.mem_map.mp hu
    obtain ⟨d, hd, hEq⟩ := List.mem_map.mp hmem
    exact hforb d (halnum w hw d hd) hEq

/-- C3, amended: for snake, kebab and dot, join-then-split returns the words
lower-cased, for any nonempty sequence of nonempty alphanumeric words.  For
Pascal and camel the round trip is stable only for purely alphabetic words
and only when every word that is followed by another word (for camel:
excluding the first word) has at least two letters; Pascal then returns the
title-cased words and camel the first word lower-cased followed by the
title-cased rest.  (Digits break both `str.title` and the lower→upper split
boundary, and one-letter middle words leave no lowercase letter at the
junction: see the counterexample.) -/
theorem round_trip_normalization (ws : List (List Char)) (hne : ws ≠ [])
    (hwne : ∀ w ∈ ws, w ≠ []) :
    ((∀ w ∈ ws, ∀ c ∈ w, isAsciiAlnumC c = true) →
      SnakeCase.from_case (SnakeCase.to_case ws) = ws.map pyLower ∧
      KebabCase.from_case (KebabCase.to_case ws) = ws.map pyLower ∧
      DotCase.from_case (DotCase.to_case ws) = ws.map pyLower) ∧
    ((∀ w ∈ ws, ∀ c ∈ w, isAsciiAlphaC c = true) →
      (midLenOK ws = true →
        PascalCase.from_case (PascalCase.to_case ws) = ws.map pyTitle) ∧
      (∀ w1 rest, ws = w1 :: rest → midLenOK rest = true →
        ∃ s, CamelCase.to_case ws = some s ∧
          CamelCase.from_case s = pyLower w1 :: rest.map pyTitle)) := by
  constructor
  · intro halnum
    refine ⟨?_, ?_, ?_⟩
    · exact flat_round_trip '_' (by decide)
        (fun c hc => (alnum_ne_sep (alnum_toLowC hc)).1) ws hne halnum
    · exact flat_round_trip '-' (by decide)
        (fun c hc => (alnum_ne_sep (alnum_toLowC hc)).2.1) ws hne halnum
    · exact flat_round_trip '.' (by decide)
        (fun c hc => (alnum_ne_sep (alnum_toLowC hc)).2.2) ws hne halnum
  · intro halpha
    constructor
    · intro hmid
      exact pascal_round_trip ws hne
        (fun w hw => ⟨hwne w hw, halpha w hw⟩) hmid
    · rintro w1 rest rfl hmid
      exact camel_round_trip w1 rest
        (fun w hw => ⟨hwne w hw, halpha w hw⟩) hmid

/-- C3, counterexample: the claim as stated fails for camel and Pascal.  A
digit kills the camel split boundary — `to_case(["foo1", "bar"])` is
`"foo1Bar"`, whose `from_case` is the one-element list `["foo1Bar"]`, not the
two words the claim promises — and a one-letter non-final word merges in
Pascal: `to_case(["a", "bc"]) = "ABc"` splits back to `["ABc"]`. -/
theorem camel_pascal_round_trip_merges :
    CamelCase.to_case ["foo1".data, "bar".data] = some "foo1Bar".data ∧
      CamelCase.from_case "foo1Bar".data = ["foo1Bar".data] ∧
      ("foo1Bar".data :: ([] : List (List Char))).length = 1 ∧
      PascalCase.to_case ["a".data, "bc".data] = "ABc".data ∧
      PascalCase.from_case "ABc".data = ["ABc".data] := by
  decide

/-- C3 witness: the amended round trips at `["foo", "bar"]`. -/
theorem round_trip_normalization_witness :
    (["foo".data, "bar".data] : List (List Char)) ≠ [] ∧
      SnakeCase.from_case (SnakeCase.to_case ["foo".data, "bar".data]) =
        ["foo".data, "bar".data].map pyLower ∧
      PascalCase.from_case (PascalCase.to_case ["foo".data, "bar".data]) =
        ["foo".data, "bar".data].map pyTitle ∧
      (∃ s, CamelCase.to_case ["foo".data, "bar".data] = some s ∧
        CamelCase.from_case s = pyLower "foo".data :: ["bar".data].map pyTitle) :=
  ⟨by decide,
    ((round_trip_normalization _ (by decide) (by decide)).1 (by decide)).1,
    ((round_trip_normalization _ (by decide) (by decide)).2 (by decide)).1 (by decide),
    ((round_trip_normalization _ (by decide) (by decide)).2 (by decide)).2
      "foo".data ["bar".data] rfl (by decide)⟩
